import Mathlib

/-!
# A verification model of the `binary_tree` crate

The repository ships only the rustdoc search index and trait-implementor
listings of the crate `binary_tree` (modules `count`, `cow`, `iter`,
`unbox`); the Rust implementation files themselves are not part of the
source set.  The definitions below are therefore modelled from the
specification and from the declarations and doc comments present in the
rustdoc output: `CountTree`/`CountNode` (a positionally indexed binary
tree whose nodes store their subtree size), the generic node algorithms
(`rotate_left`, `rotate_right`, `walk_reshape`, `try_remove`), and the
copy-on-write pointers `RcCow`/`ArcCow`.

An `Option<Box<CountNode<T>>>` pointer (`NodePtr`) together with the node
it points to is modelled as the inductive `CTree`: `nil` is the absent
pointer, `node v c l r` is a `CountNode` with value `v`, stored subtree
size `c`, and child pointers `l`, `r`.
-/

namespace BinaryTree

/-- `WalkAction`: list of actions during a `Node::walk` or `NodeMut::walk_*`
(variants `Left`, `Right`, `Stop`), from the crate's public declarations. -/
inductive WalkAction : Type where
  | left : WalkAction
  | right : WalkAction
  | stop : WalkAction
deriving DecidableEq, Repr

/-- A `CountTree` edge: either no child (`nil`, the `None : NodePtr` case) or
a `CountNode` carrying its value, its stored subtree size `c`, and its two
child subtrees. -/
inductive CTree (α : Type) : Type where
  | nil : CTree α
  | node (v : α) (c : Nat) (l : CTree α) (r : CTree α) : CTree α
deriving DecidableEq, Repr

namespace CTree

variable {α : Type}

/-- Stored subtree size of a pointer: 0 for `None`, the node's stored count
otherwise.  Modelled from the spec: "each node additionally stores the size
of its subtree for O(1) length queries". -/
def cnt : CTree α → Nat
  | nil => 0
  | node _ c _ _ => c

/-- The actual number of nodes in the subtree (by traversal, ignoring the
stored counts). -/
def realSize : CTree α → Nat
  | nil => 0
  | node _ _ l r => 1 + realSize l + realSize r

/-- The size invariant of `CountNode`, from the spec:
`size(node) == 1 + size(left) + size(right)` at every node, where each
`size` is the stored count. -/
def sizeOk : CTree α → Bool
  | nil => true
  | node _ c l r => (c == 1 + cnt l + cnt r) && sizeOk l && sizeOk r

/-- Build a node the way the crate's `CountNode` constructor and its
count-maintaining `insert_left`/`insert_right` do: the stored count is
derived from the children's stored counts. -/
def mkNode (v : α) (l r : CTree α) : CTree α :=
  node v (1 + cnt l + cnt r) l r

/-- In-order traversal, the sequence the crate's iterators produce. -/
def toList : CTree α → List α
  | nil => []
  | node v _ l r => toList l ++ v :: toList r

/-- Modelled from the spec: `CountTree::len`, "the number of elements in the
tree, O(1), tracked via root subtree size". -/
def len (t : CTree α) : Nat := cnt t

/-- Modelled from the spec: `CountTree::get`, O(log n) positional lookup "by
descending left/right based on cumulative left-subtree size comparison
against the target index"; `none` when the index is out of bounds. -/
def get : CTree α → Nat → Option α
  | nil, _ => none
  | node v _ l r, i =>
    if i < cnt l then get l i
    else if i = cnt l then some v
    else get r (i - cnt l - 1)

/-- Modelled from the spec: `CountTree::get_mut`, the same descent as `get`
but giving mutable access; we model the mutation it enables as applying `f`
to the selected element, `none` when the index is out of bounds. -/
def getMut (f : α → α) : CTree α → Nat → Option (CTree α)
  | nil, _ => none
  | node v c l r, i =>
    if i < cnt l then (getMut f l i).map (fun l' => node v c l' r)
    else if i = cnt l then some (node (f v) c l r)
    else (getMut f r (i - cnt l - 1)).map (fun r' => node v c l r')

/-- Modelled from the spec: `CountTree::push_front`, "prepends an element at
the beginning" (descend to the leftmost position), maintaining counts. -/
def pushFront (x : α) : CTree α → CTree α
  | nil => mkNode x nil nil
  | node v _ l r => mkNode v (pushFront x l) r

/-- Modelled from the spec: `CountTree::push_back`, "appends an element at
the end" (descend to the rightmost position), maintaining counts. -/
def pushBack (x : α) : CTree α → CTree α
  | nil => mkNode x nil nil
  | node v _ l r => mkNode v l (pushBack x r)

/-- Modelled from the spec: `CountTree::pop_front`, "removes and returns the
first element, or `None` if empty". -/
def popFront : CTree α → Option (α × CTree α)
  | nil => none
  | node v _ nil r => some (v, r)
  | node v _ (node lv lc ll lr) r =>
    (popFront (node lv lc ll lr)).map (fun p => (p.1, mkNode v p.2 r))

/-- Modelled from the spec: `CountTree::pop_back`, "removes and returns the
last element, or `None` if empty". -/
def popBack : CTree α → Option (α × CTree α)
  | nil => none
  | node v _ l nil => some (v, l)
  | node v _ l (node rv rc rl rr) =>
    (popBack (node rv rc rl rr)).map (fun p => (p.1, mkNode v l p.2))

/-- Modelled from the spec: positional insertion at index `i` (`insert` /
`insert_before`), descending by left-subtree size and maintaining counts.
The spec leaves the rebalancing strategy open ("must be chosen by the
implementer"), and rebalancing does not change the in-order sequence, so
none is applied here. -/
def insertAt : CTree α → Nat → α → CTree α
  | nil, _, x => mkNode x nil nil
  | node v _ l r, i, x =>
    if i ≤ cnt l then mkNode v (insertAt l i x) r
    else mkNode v l (insertAt r (i - cnt l - 1) x)

/-- Modelled from the spec: replace a removed node by its in-order
predecessor promoted from the left subtree ("conventionally the in-order
predecessor or successor"); when the left subtree is absent the right
subtree takes the node's place. -/
def delRoot (l r : CTree α) : CTree α :=
  match popBack l with
  | none => r
  | some (x, l') => mkNode x l' r

/-- Modelled from the spec: positional removal at index `i`, descending by
left-subtree size; `none` when the index is out of bounds. -/
def removeAt : CTree α → Nat → Option (α × CTree α)
  | nil, _ => none
  | node v _ l r, i =>
    if i < cnt l then (removeAt l i).map (fun p => (p.1, mkNode v p.2 r))
    else if i = cnt l then some (v, delRoot l r)
    else (removeAt r (i - cnt l - 1)).map (fun p => (p.1, mkNode v l p.2))

/-- `CountTree::remove` as declared in the rustdoc output: its result type
is the plain element type `T`, not `Option<T>`, so on an out-of-bounds
index no value of `T` exists to return (the tree may be empty) and the call
is a fatal error (a panic); we model the panic as `Except.error`. -/
def removeExn (t : CTree α) (i : Nat) : Except String (α × CTree α) :=
  match removeAt t i with
  | some p => Except.ok p
  | none => Except.error "index out of bounds"

/-- Modelled from the spec: `NodeMut::rotate_left`, "try to rotate the tree
left if right subtree exists"; fails (`none`) when the right child is
absent.  Counts are maintained by the node constructors, as the crate's
`detach_right`/`insert_right` maintain them on `CountNode`. -/
def rotateLeft : CTree α → Option (CTree α)
  | node v _ l (node rv _ rl rr) => some (mkNode rv (mkNode v l rl) rr)
  | _ => none

/-- Modelled from the spec: `NodeMut::rotate_right`, "try to rotate the
tree right if left subtree exists"; fails (`none`) when the left child is
absent. -/
def rotateRight : CTree α → Option (CTree α)
  | node v _ (node lv _ ll lr) r => some (mkNode lv ll (mkNode v lr r))
  | _ => none

/-- Modelled from the spec: `NodeMut::try_remove` — "replace this node with
one of its descendant, returns `None` if it has no children".  On a leaf
there is nothing to promote; with one child that child's subtree is
promoted into the node's place; with two children the in-order predecessor
is promoted to the root.  The pair returned is the removed node's value
together with the subtree that takes its place. -/
def tryRemove : CTree α → Option (α × CTree α)
  | nil => none
  | node _ _ nil nil => none
  | node v _ nil (node rv rc rl rr) => some (v, node rv rc rl rr)
  | node v _ (node lv lc ll lr) nil => some (v, node lv lc ll lr)
  | node v _ (node lv lc ll lr) (node rv rc rl rr) =>
    match popBack (node lv lc ll lr) with
    | some (x, l') => some (v, mkNode x l' (node rv rc rl rr))
    | none => none

/-- Modelled from the spec: `from_iter` bulk construction "from a sequence
... by a balanced build strategy".  `buildBal n l` builds a
size-balanced tree from the first `n` elements of `l` (median at the root)
and returns the remaining elements. -/
def buildBal : Nat → List α → CTree α × List α
  | 0, l => (nil, l)
  | m + 1, l =>
    let p := buildBal (m / 2) l
    match p.2 with
    | [] => (p.1, [])
    | x :: rest =>
      let q := buildBal (m - m / 2) rest
      (mkNode x p.1 q.1, q.2)

/-- Modelled from the spec: `CountTree::from_iter`, bulk construction of a
`CountTree` from a sequence. -/
def fromIter (l : List α) : CTree α :=
  (buildBal l.length l).1

end CTree

open CTree

/-- One operation of a `CountTree` mutation history, as enumerated by the
spec's length property: `push_front`, `push_back`, positional `insert`,
positional `remove`. -/
inductive Op (α : Type) : Type where
  | pushFrontOp (x : α) : Op α
  | pushBackOp (x : α) : Op α
  | insertOp (i : Nat) (x : α) : Op α
  | removeOp (i : Nat) : Op α
deriving DecidableEq, Repr

/-- Apply one operation to a `CountTree` state carrying the running number
of successful insertions and removals.  `insert` succeeds when the index is
at most the length (the crate's precondition); `remove` succeeds when the
index is in bounds; `push_front`/`push_back` always succeed. -/
def treeStep : CTree α × Nat × Nat → Op α → CTree α × Nat × Nat
  | (t, a, b), Op.pushFrontOp x => (pushFront x t, a + 1, b)
  | (t, a, b), Op.pushBackOp x => (pushBack x t, a + 1, b)
  | (t, a, b), Op.insertOp i x =>
    if i ≤ cnt t then (insertAt t i x, a + 1, b) else (t, a, b)
  | (t, a, b), Op.removeOp i =>
    match removeAt t i with
    | some p => (p.2, a, b + 1)
    | none => (t, a, b)

/-- Run a history of operations on a `CountTree` starting from `new()` (the
empty tree), counting successful insertions and removals. -/
def treeRun (ops : List (Op α)) : CTree α × Nat × Nat :=
  ops.foldl treeStep (CTree.nil, 0, 0)

/-- Modelled from the spec: the reference sequence — insertion at an index
in a plain list. -/
def refInsert : List α → Nat → α → List α
  | l, 0, x => x :: l
  | [], _ + 1, x => [x]
  | y :: l, i + 1, x => y :: refInsert l i x

/-- Modelled from the spec: the reference sequence — removal at an index in
a plain list. -/
def refRemove : List α → Nat → List α
  | [], _ => []
  | _ :: l, 0 => l
  | y :: l, i + 1 => y :: refRemove l i

/-- The reference sequence implementation: the same operation semantics on
a plain list, with the same success conditions. -/
def refStep : List α × Nat × Nat → Op α → List α × Nat × Nat
  | (l, a, b), Op.pushFrontOp x => (x :: l, a + 1, b)
  | (l, a, b), Op.pushBackOp x => (l ++ [x], a + 1, b)
  | (l, a, b), Op.insertOp i x =>
    if i ≤ l.length then (refInsert l i x, a + 1, b) else (l, a, b)
  | (l, a, b), Op.removeOp i =>
    if i < l.length then (refRemove l i, a, b + 1) else (l, a, b)

/-- Run a history of operations on the reference sequence starting from the
empty sequence. -/
def refRun (ops : List (Op α)) : List α × Nat × Nat :=
  ops.foldl refStep ([], 0, 0)

/-- Whether a `NodePtr` is absent (`None`). -/
def isNil : CTree α → Bool
  | CTree.nil => true
  | CTree.node _ _ _ _ => false

/-- Modelled from the spec: `NodeMut::walk_reshape` — "walks down the tree
by detaching subtrees, then up reattaching them back; `step_in` guides the
path taken, `stop` is called on the node where either `step_in` returned
`Stop` or it was not possible to proceed, then `step_out` is called for
each node along the way to root, except the final one".  The embedding is
instrumented: besides the reshaped tree it returns the list of nodes on
which `stop` was invoked and the list of nodes on which `step_out` was
invoked.  On reattachment the parent's stored count is adjusted the way
`CountNode::insert_left`/`insert_right` adjust it. -/
def walkReshapeI (fi : CTree α → WalkAction) (fs : CTree α → CTree α)
    (fo : CTree α → WalkAction → CTree α) :
    CTree α → CTree α × List (CTree α) × List (CTree α)
  | CTree.nil => (CTree.nil, [], [])
  | CTree.node v c l r =>
    match fi (CTree.node v c l r) with
    | WalkAction.stop =>
      (fs (CTree.node v c l r), [CTree.node v c l r], [])
    | WalkAction.left =>
      if isNil l then (fs (CTree.node v c l r), [CTree.node v c l r], [])
      else
        let p := walkReshapeI fi fs fo l
        let self := CTree.node v (c - cnt l + cnt p.1) p.1 r
        (fo self WalkAction.left, p.2.1, p.2.2 ++ [self])
    | WalkAction.right =>
      if isNil r then (fs (CTree.node v c l r), [CTree.node v c l r], [])
      else
        let p := walkReshapeI fi fs fo r
        let self := CTree.node v (c - cnt r + cnt p.1) l p.1
        (fo self WalkAction.right, p.2.1, p.2.2 ++ [self])

/-- The node on which a `walk_reshape` driven by `fi` stops: follow the
`step_in` directions until `Stop` or an absent child. -/
def finalNode (fi : CTree α → WalkAction) : CTree α → CTree α
  | CTree.nil => CTree.nil
  | CTree.node v c l r =>
    match fi (CTree.node v c l r) with
    | WalkAction.stop => CTree.node v c l r
    | WalkAction.left =>
      if isNil l then CTree.node v c l r else finalNode fi l
    | WalkAction.right =>
      if isNil r then CTree.node v c l r else finalNode fi r

/-- The number of proper ancestors on the root-to-final-node descent path
of a `walk_reshape` driven by `fi` (the stopping node itself excluded). -/
def pathLen (fi : CTree α → WalkAction) : CTree α → Nat
  | CTree.nil => 0
  | CTree.node v c l r =>
    match fi (CTree.node v c l r) with
    | WalkAction.stop => 0
    | WalkAction.left =>
      if isNil l then 0 else pathLen fi l + 1
    | WalkAction.right =>
      if isNil r then 0 else pathLen fi r + 1

/-- Modelled from the spec: the heap of shared-ownership cells behind the
copy-on-write pointers.  Each cell carries its strong reference count and
its payload.  The sequential semantics of `RcCow` and `ArcCow` coincide;
only the atomicity of `ArcCow`'s counter differs, which is outside this
functional embedding. -/
structure CowHeap (α : Type) : Type where
  cells : List (Nat × α)
deriving Repr

/-- A copy-on-write pointer: the index of the cell it owns a share of. -/
structure RcCow (α : Type) : Type where
  idx : Nat
deriving DecidableEq, Repr

/-- Modelled from the spec: `RcCow::new` — wrap a value in a fresh
shared-ownership cell with reference count 1. -/
def RcCow.mkNew (x : α) (h : CowHeap α) : RcCow α × CowHeap α :=
  (⟨h.cells.length⟩, ⟨h.cells ++ [(1, x)]⟩)

/-- Modelled from the spec: `RcCow::clone` — "increments the share count
without copying payload". -/
def RcCow.clone (p : RcCow α) (h : CowHeap α) : RcCow α × CowHeap α :=
  match h.cells[p.idx]? with
  | some cell => (p, ⟨h.cells.set p.idx (cell.1 + 1, cell.2)⟩)
  | none => (p, h)

/-- Modelled from the spec: `RcCow::deref` — shared read access to the
payload. -/
def RcCow.read (p : RcCow α) (h : CowHeap α) : Option α :=
  (h.cells[p.idx]?).map (fun cell => cell.2)

/-- Modelled from the spec: `RcCow::deref_mut` — "checks the reference
count: if exactly one owner, mutate in place; if more than one, clone the
payload into a fresh allocation first, then mutate the clone, leaving prior
sharers' view unaffected".  The mutation performed through the returned
exclusive access is modelled as applying `f`. -/
def RcCow.derefMut (p : RcCow α) (f : α → α) (h : CowHeap α) :
    RcCow α × CowHeap α :=
  match h.cells[p.idx]? with
  | none => (p, h)
  | some cell =>
    if cell.1 ≤ 1 then
      (p, ⟨h.cells.set p.idx (1, f cell.2)⟩)
    else
      (⟨h.cells.length⟩,
       ⟨(h.cells.set p.idx (cell.1 - 1, cell.2)) ++ [(1, f cell.2)]⟩)

/-! ## Basic lemmas about the model -/

namespace CTree

variable {α : Type}

@[simp] lemma cnt_nil : cnt (nil : CTree α) = 0 := rfl

@[simp] lemma cnt_node (v : α) (c : Nat) (l r : CTree α) :
    cnt (node v c l r) = c := rfl

@[simp] lemma cnt_mkNode (v : α) (l r : CTree α) :
    cnt (mkNode v l r) = 1 + cnt l + cnt r := rfl

@[simp] lemma toList_nil : toList (nil : CTree α) = [] := rfl

@[simp] lemma toList_node (v : α) (c : Nat) (l r : CTree α) :
    toList (node v c l r) = toList l ++ v :: toList r := rfl

@[simp] lemma toList_mkNode (v : α) (l r : CTree α) :
    toList (mkNode v l r) = toList l ++ v :: toList r := rfl

@[simp] lemma sizeOk_nil : sizeOk (nil : CTree α) = true := rfl

lemma sizeOk_node (v : α) (c : Nat) (l r : CTree α) :
    sizeOk (node v c l r) = true ↔
      c = 1 + cnt l + cnt r ∧ sizeOk l = true ∧ sizeOk r = true := by
  simp [sizeOk, Bool.and_assoc]

lemma sizeOk_mkNode {l r : CTree α} (v : α)
    (hl : sizeOk l = true) (hr : sizeOk r = true) :
    sizeOk (mkNode v l r) = true := by
  rw [mkNode, sizeOk_node]
  exact ⟨rfl, hl, hr⟩

lemma length_toList (t : CTree α) : (toList t).length = realSize t := by
  induction t with
  | nil => rfl
  | node v c l r ihl ihr => simp [realSize, ihl, ihr]; omega

lemma cnt_eq_length {t : CTree α} (h : sizeOk t = true) :
    cnt t = (toList t).length := by
  induction t with
  | nil => rfl
  | node v c l r ihl ihr =>
    rw [sizeOk_node] at h
    simp [ihl h.2.1, ihr h.2.2, h.1]
    omega

/-- `get` under the size invariant is exactly positional lookup in the
in-order sequence, at every index (in particular `none` out of bounds). -/
lemma get_toList {t : CTree α} (h : sizeOk t = true) (i : Nat) :
    get t i = (toList t)[i]? := by
  induction t generalizing i with
  | nil => simp [get]
  | node v c l r ihl ihr =>
    rw [sizeOk_node] at h
    obtain ⟨hc, hl, hr⟩ := h
    rw [get, toList_node]
    by_cases h1 : i < cnt l
    · rw [if_pos h1, List.getElem?_append, if_pos (by rw [← cnt_eq_length hl]; exact h1)]
      exact ihl hl i
    · rw [if_neg h1]
      by_cases h2 : i = cnt l
      · rw [if_pos h2, List.getElem?_append,
          if_neg (by rw [← cnt_eq_length hl]; omega)]
        rw [← cnt_eq_length hl, h2]
        simp
      · rw [if_neg h2, List.getElem?_append,
          if_neg (by rw [← cnt_eq_length hl]; omega)]
        rw [← cnt_eq_length hl]
        have h3 : cnt l < i := by omega
        have h4 : i - cnt l = (i - cnt l - 1) + 1 := by omega
        rw [h4]
        simp [ihr hr]

@[simp] lemma pushFront_toList (x : α) (t : CTree α) :
    toList (pushFront x t) = x :: toList t := by
  induction t with
  | nil => rfl
  | node v c l r ihl ihr => simp [pushFront, ihl]

lemma pushFront_sizeOk {t : CTree α} (x : α) (h : sizeOk t = true) :
    sizeOk (pushFront x t) = true := by
  induction t with
  | nil => rfl
  | node v c l r ihl ihr =>
    rw [sizeOk_node] at h
    exact sizeOk_mkNode v (ihl h.2.1) h.2.2

@[simp] lemma pushBack_toList (x : α) (t : CTree α) :
    toList (pushBack x t) = toList t ++ [x] := by
  induction t with
  | nil => rfl
  | node v c l r ihl ihr => simp [pushBack, ihr]

lemma pushBack_sizeOk {t : CTree α} (x : α) (h : sizeOk t = true) :
    sizeOk (pushBack x t) = true := by
  induction t with
  | nil => rfl
  | node v c l r ihl ihr =>
    rw [sizeOk_node] at h
    exact sizeOk_mkNode v h.2.1 (ihr h.2.2)

lemma popFront_spec {t : CTree α} (h : t ≠ nil) :
    ∃ x t', popFront t = some (x, t') ∧ toList t = x :: toList t' ∧
      (sizeOk t = true → sizeOk t' = true) := by
  induction t with
  | nil => exact absurd rfl h
  | node v c l r ihl ihr =>
    match l with
    | nil =>
      exact ⟨v, r, rfl, rfl, fun hs => ((sizeOk_node _ _ _ _).1 hs).2.2⟩
    | node lv lc ll lr =>
      obtain ⟨x, l', hpop, hlist, hsz⟩ := ihl (by simp)
      refine ⟨x, mkNode v l' r, ?_, ?_, ?_⟩
      · rw [popFront, hpop]; rfl
      · simp [hlist]
      · intro hs
        rw [sizeOk_node] at hs
        exact sizeOk_mkNode v (hsz hs.2.1) hs.2.2

lemma popBack_spec {t : CTree α} (h : t ≠ nil) :
    ∃ x t', popBack t = some (x, t') ∧ toList t = toList t' ++ [x] ∧
      (sizeOk t = true → sizeOk t' = true) := by
  induction t with
  | nil => exact absurd rfl h
  | node v c l r ihl ihr =>
    match r with
    | nil =>
      exact ⟨v, l, rfl, by simp, fun hs => ((sizeOk_node _ _ _ _).1 hs).2.1⟩
    | node rv rc rl rr =>
      obtain ⟨x, r', hpop, hlist, hsz⟩ := ihr (by simp)
      refine ⟨x, mkNode v l r', ?_, ?_, ?_⟩
      · rw [popBack, hpop]; rfl
      · simp [hlist]
      · intro hs
        rw [sizeOk_node] at hs
        exact sizeOk_mkNode v hs.2.1 (hsz hs.2.2)

lemma insertAt_sizeOk {t : CTree α} (i : Nat) (x : α) (h : sizeOk t = true) :
    sizeOk (insertAt t i x) = true := by
  induction t generalizing i with
  | nil => rfl
  | node v c l r ihl ihr =>
    rw [sizeOk_node] at h
    rw [insertAt]
    by_cases h1 : i ≤ cnt l
    · rw [if_pos h1]; exact sizeOk_mkNode v (ihl _ h.2.1) h.2.2
    · rw [if_neg h1]; exact sizeOk_mkNode v h.2.1 (ihr _ h.2.2)

lemma insertAt_cnt {t : CTree α} (i : Nat) (x : α) (h : sizeOk t = true) :
    cnt (insertAt t i x) = cnt t + 1 := by
  induction t generalizing i with
  | nil => rfl
  | node v c l r ihl ihr =>
    rw [sizeOk_node] at h
    rw [insertAt]
    by_cases h1 : i ≤ cnt l
    · rw [if_pos h1]; simp [ihl _ h.2.1]; omega
    · rw [if_neg h1]; simp [ihr _ h.2.2]; omega

lemma refInsert_append_left {A : List α} {i : Nat} (C : List α) (x : α)
    (hi : i ≤ A.length) :
    refInsert (A ++ C) i x = refInsert A i x ++ C := by
  induction A generalizing i with
  | nil =>
    have h0 : i = 0 := by simpa using hi
    subst h0
    simp [refInsert]
  | cons a A ih =>
    match i with
    | 0 => rfl
    | i + 1 =>
      simp only [List.cons_append, refInsert, List.append_eq]
      rw [ih (by simpa using hi)]

lemma refInsert_append_right {A : List α} {i : Nat} (C : List α) (x : α)
    (hi : A.length < i) :
    refInsert (A ++ C) i x = A ++ refInsert C (i - A.length) x := by
  induction A generalizing i with
  | nil => simp
  | cons a A ih =>
    match i with
    | 0 => simp at hi
    | i + 1 =>
      simp only [List.cons_append, refInsert, List.append_eq]
      rw [ih (by simpa using hi)]
      simp

lemma insertAt_toList {t : CTree α} {i : Nat} (x : α) (h : sizeOk t = true)
    (hi : i ≤ cnt t) :
    toList (insertAt t i x) = refInsert (toList t) i x := by
  induction t generalizing i with
  | nil =>
    have h0 : i = 0 := by simpa [cnt] using hi
    subst h0
    rfl
  | node v c l r ihl ihr =>
    rw [sizeOk_node] at h
    obtain ⟨hc, hl, hr⟩ := h
    simp only [cnt_node] at hi
    rw [insertAt]
    by_cases h1 : i ≤ cnt l
    · rw [if_pos h1, toList_mkNode, toList_node, ihl hl h1,
        refInsert_append_left _ _ (by rw [← cnt_eq_length hl]; exact h1)]
    · rw [if_neg h1, toList_mkNode, toList_node,
        ihr hr (by omega),
        refInsert_append_right _ _ (by rw [← cnt_eq_length hl]; omega)]
      rw [← cnt_eq_length hl]
      have h2 : i - cnt l = (i - cnt l - 1) + 1 := by omega
      rw [h2, refInsert]
      simp

lemma refRemove_append_left {A : List α} {i : Nat} (C : List α)
    (hi : i < A.length) :
    refRemove (A ++ C) i = refRemove A i ++ C := by
  induction A generalizing i with
  | nil => simp at hi
  | cons a A ih =>
    match i with
    | 0 => rfl
    | i + 1 =>
      simp only [List.cons_append, refRemove, List.append_eq]
      rw [ih (by simpa using hi)]

lemma refRemove_append_right {A : List α} {i : Nat} (C : List α)
    (hi : A.length ≤ i) :
    refRemove (A ++ C) i = A ++ refRemove C (i - A.length) := by
  induction A generalizing i with
  | nil => simp
  | cons a A ih =>
    match i with
    | 0 => simp at hi
    | i + 1 =>
      simp only [List.cons_append, refRemove, List.append_eq]
      rw [ih (by simpa using hi)]
      simp

lemma delRoot_spec {l : CTree α} (r : CTree α)
    (hl : sizeOk l = true) (hr : sizeOk r = true) :
    toList (delRoot l r) = toList l ++ toList r ∧
      sizeOk (delRoot l r) = true := by
  match l with
  | nil => exact ⟨rfl, hr⟩
  | node lv lc ll lr =>
    obtain ⟨x, l', hpop, hlist, hsz⟩ :=
      popBack_spec (t := node lv lc ll lr) (by simp)
    rw [delRoot, hpop]
    refine ⟨?_, sizeOk_mkNode x (hsz hl) hr⟩
    simp [hlist]

lemma removeAt_none {t : CTree α} {i : Nat} (h : sizeOk t = true)
    (hi : cnt t ≤ i) : removeAt t i = none := by
  induction t generalizing i with
  | nil => rfl
  | node v c l r ihl ihr =>
    rw [sizeOk_node] at h
    obtain ⟨hc, hl, hr⟩ := h
    simp only [cnt_node] at hi
    rw [removeAt, if_neg (by omega), if_neg (by omega),
      ihr hr (by omega)]
    rfl

lemma removeAt_some {t : CTree α} {i : Nat} (h : sizeOk t = true)
    (hi : i < cnt t) :
    ∃ x t', removeAt t i = some (x, t') ∧ sizeOk t' = true ∧
      (toList t)[i]? = some x ∧ toList t' = refRemove (toList t) i := by
  induction t generalizing i with
  | nil => simp [cnt] at hi
  | node v c l r ihl ihr =>
    rw [sizeOk_node] at h
    obtain ⟨hc, hl, hr⟩ := h
    rw [removeAt]
    by_cases h1 : i < cnt l
    · obtain ⟨x, l', hrem, hsz, hget, hlist⟩ := ihl hl h1
      rw [if_pos h1, hrem]
      refine ⟨x, mkNode v l' r, rfl, sizeOk_mkNode v hsz hr, ?_, ?_⟩
      · rw [toList_node, List.getElem?_append,
          if_pos (by rw [← cnt_eq_length hl]; exact h1)]
        exact hget
      · rw [toList_mkNode, toList_node, hlist,
          refRemove_append_left _ (by rw [← cnt_eq_length hl]; exact h1)]
    · by_cases h2 : i = cnt l
      · rw [if_neg h1, if_pos h2]
        obtain ⟨hdl, hds⟩ := delRoot_spec r hl hr
        refine ⟨v, delRoot l r, rfl, hds, ?_, ?_⟩
        · rw [toList_node, h2, cnt_eq_length hl, List.getElem?_append,
            if_neg (by omega)]
          simp
        · rw [hdl, toList_node,
            refRemove_append_right _ (by rw [← cnt_eq_length hl]; omega),
            ← cnt_eq_length hl, h2]
          simp [refRemove]
      · simp only [cnt_node] at hi
        have h3 : i - cnt l - 1 < cnt r := by omega
        obtain ⟨x, r', hrem, hsz, hget, hlist⟩ := ihr hr h3
        rw [if_neg h1, if_neg h2, hrem]
        refine ⟨x, mkNode v l r', rfl, sizeOk_mkNode v hl hsz, ?_, ?_⟩
        · rw [toList_node, List.getElem?_append,
            if_neg (by rw [← cnt_eq_length hl]; omega),
            ← cnt_eq_length hl]
          have h4 : i - cnt l = (i - cnt l - 1) + 1 := by omega
          rw [h4]
          simpa using hget
        · rw [toList_mkNode, toList_node, hlist,
            refRemove_append_right _ (by rw [← cnt_eq_length hl]; omega),
            ← cnt_eq_length hl]
          have h4 : i - cnt l = (i - cnt l - 1) + 1 := by omega
          rw [h4, refRemove]
          simp

end CTree

open CTree

lemma refInsert_length (l : List α) (i : Nat) (x : α) :
    (refInsert l i x).length = l.length + 1 := by
  induction l generalizing i with
  | nil =>
    match i with
    | 0 => rfl
    | _ + 1 => rfl
  | cons y l ih =>
    match i with
    | 0 => rfl
    | i + 1 => simp [refInsert, ih]

lemma refRemove_length {l : List α} {i : Nat} (hi : i < l.length) :
    (refRemove l i).length + 1 = l.length := by
  induction l generalizing i with
  | nil => simp at hi
  | cons y l ih =>
    match i with
    | 0 => rfl
    | i + 1 => simp [refRemove, ih (by simpa using hi)]

/-- One step of a `CountTree` operation history agrees with one step on the
reference sequence: the tree stays size-correct, its in-order sequence
tracks the reference sequence, and the success counters coincide. -/
lemma treeStep_refStep {t : CTree α} {l : List α} {a b : Nat}
    (hs : sizeOk t = true) (ht : toList t = l) (op : Op α) :
    sizeOk (treeStep (t, a, b) op).1 = true ∧
      toList (treeStep (t, a, b) op).1 = (refStep (l, a, b) op).1 ∧
      (treeStep (t, a, b) op).2 = (refStep (l, a, b) op).2 := by
  have hlen : cnt t = l.length := by rw [cnt_eq_length hs, ht]
  cases op with
  | pushFrontOp x =>
    exact ⟨pushFront_sizeOk x hs, by simp [treeStep, refStep, ht], rfl⟩
  | pushBackOp x =>
    exact ⟨pushBack_sizeOk x hs, by simp [treeStep, refStep, ht], rfl⟩
  | insertOp i x =>
    by_cases hi : i ≤ cnt t
    · rw [treeStep, if_pos hi, refStep]
      rw [if_pos (by omega)]
      exact ⟨insertAt_sizeOk i x hs, by rw [insertAt_toList x hs hi, ht], rfl⟩
    · rw [treeStep, if_neg hi, refStep, if_neg (by omega)]
      exact ⟨hs, ht, rfl⟩
  | removeOp i =>
    by_cases hi : i < cnt t
    · obtain ⟨x, t', hrem, hsz, hget, hlist⟩ := removeAt_some hs hi
      rw [treeStep, hrem, refStep, if_pos (by omega)]
      exact ⟨hsz, by rw [hlist, ht], rfl⟩
    · rw [treeStep, removeAt_none hs (by omega), refStep, if_neg (by omega)]
      exact ⟨hs, ht, rfl⟩

/-- A whole operation history run on a `CountTree` agrees with the run on
the reference sequence. -/
lemma foldl_treeStep_refStep (ops : List (Op α)) :
    ∀ (t : CTree α) (l : List α) (a b : Nat),
      sizeOk t = true → toList t = l →
      sizeOk (List.foldl treeStep (t, a, b) ops).1 = true ∧
        toList (List.foldl treeStep (t, a, b) ops).1
          = (List.foldl refStep (l, a, b) ops).1 ∧
        (List.foldl treeStep (t, a, b) ops).2
          = (List.foldl refStep (l, a, b) ops).2 := by
  induction ops with
  | nil =>
    intro t l a b hs ht
    exact ⟨hs, ht, rfl⟩
  | cons op ops ih =>
    intro t l a b hs ht
    obtain ⟨h1, h2, h3⟩ := treeStep_refStep hs ht op
    have key := ih (treeStep (t, a, b) op).1 (refStep (l, a, b) op).1
      (refStep (l, a, b) op).2.1 (refStep (l, a, b) op).2.2 h1 h2
    have hre : treeStep (t, a, b) op =
        ((treeStep (t, a, b) op).1,
         (refStep (l, a, b) op).2.1, (refStep (l, a, b) op).2.2) := by
      rw [← h3]
    rw [List.foldl_cons, List.foldl_cons, hre]
    exact key

/-- On the reference sequence, the length always equals successful
insertions minus successful removals (kept as `length + removals =
insertions` over `Nat`). -/
lemma refRun_length_invariant (ops : List (Op α)) :
    ∀ (l : List α) (a b : Nat), l.length + b = a →
      (List.foldl refStep (l, a, b) ops).1.length
          + (List.foldl refStep (l, a, b) ops).2.2
        = (List.foldl refStep (l, a, b) ops).2.1 := by
  induction ops with
  | nil =>
    intro l a b h
    exact h
  | cons op ops ih =>
    intro l a b h
    rw [List.foldl_cons]
    cases op with
    | pushFrontOp x => exact ih _ _ _ (by simp [refStep]; omega)
    | pushBackOp x => exact ih _ _ _ (by simp [refStep]; omega)
    | insertOp i x =>
      by_cases hi : i ≤ l.length
      · rw [refStep, if_pos hi]
        exact ih _ _ _ (by rw [refInsert_length]; omega)
      · rw [refStep, if_neg hi]
        exact ih _ _ _ h
    | removeOp i =>
      by_cases hi : i < l.length
      · rw [refStep, if_pos hi]
        exact ih _ _ _ (by have := refRemove_length hi; omega)
      · rw [refStep, if_neg hi]
        exact ih _ _ _ h

/-- Balanced bulk construction consumes exactly the asked-for elements, in
order, and produces a size-correct tree. -/
lemma buildBal_spec :
    ∀ (n : Nat) (l : List α), n ≤ l.length →
      toList (buildBal n l).1 = l.take n ∧ (buildBal n l).2 = l.drop n ∧
        sizeOk (buildBal n l).1 = true := by
  intro n
  induction n using Nat.strong_induction_on with
  | _ n ih =>
    match n with
    | 0 => exact fun l h => ⟨by simp [buildBal], by simp [buildBal], by simp [buildBal]⟩
    | m + 1 =>
      intro l h
      have h1 : m / 2 ≤ l.length := by omega
      obtain ⟨ta, tb, tc⟩ := ih (m / 2) (by omega) l h1
      have hdrop : l.drop (m / 2) = l[m / 2] :: l.drop (m / 2 + 1) :=
        List.drop_eq_getElem_cons (by omega)
      have h2 : m - m / 2 ≤ (l.drop (m / 2 + 1)).length := by
        rw [List.length_drop]
        omega
      obtain ⟨qa, qb, qc⟩ := ih (m - m / 2) (by omega) (l.drop (m / 2 + 1)) h2
      rw [buildBal]
      simp only [tb, hdrop]
      refine ⟨?_, ?_, sizeOk_mkNode _ tc qc⟩
      · rw [toList_mkNode, ta, qa]
        have key := List.take_add l (m / 2) (m - m / 2 + 1)
        rw [show m / 2 + (m - m / 2 + 1) = m + 1 by omega] at key
        rw [key, hdrop, List.take_succ_cons]
      · rw [qb, List.drop_drop]
        rw [show m / 2 + 1 + (m - m / 2) = m + 1 by omega]

/-- `removeAt` preserves the size invariant whenever it succeeds. -/
lemma removeAt_sizeOk {t t' : CTree α} {i : Nat} {x : α}
    (hs : sizeOk t = true) (h : removeAt t i = some (x, t')) :
    sizeOk t' = true := by
  by_cases hi : i < cnt t
  · obtain ⟨y, u, hrem, hsz, _, _⟩ := removeAt_some hs hi
    rw [hrem] at h
    cases h
    exact hsz
  · rw [removeAt_none hs (by omega)] at h
    cases h

/-- `popFront` preserves the size invariant whenever it succeeds. -/
lemma popFront_sizeOk {t t' : CTree α} {x : α}
    (hs : sizeOk t = true) (h : popFront t = some (x, t')) :
    sizeOk t' = true := by
  match t with
  | CTree.nil => cases h
  | CTree.node v c l r =>
    obtain ⟨y, u, hpop, _, hsz⟩ := popFront_spec (t := CTree.node v c l r) (by simp)
    rw [hpop] at h
    cases h
    exact hsz hs

/-- `popBack` preserves the size invariant whenever it succeeds. -/
lemma popBack_sizeOk {t t' : CTree α} {x : α}
    (hs : sizeOk t = true) (h : popBack t = some (x, t')) :
    sizeOk t' = true := by
  match t with
  | CTree.nil => cases h
  | CTree.node v c l r =>
    obtain ⟨y, u, hpop, _, hsz⟩ := popBack_spec (t := CTree.node v c l r) (by simp)
    rw [hpop] at h
    cases h
    exact hsz hs

/-- `rotate_left` preserves the size invariant whenever it succeeds. -/
lemma rotateLeft_sizeOk {t t' : CTree α}
    (hs : sizeOk t = true) (h : rotateLeft t = some t') :
    sizeOk t' = true := by
  match t with
  | CTree.nil => cases h
  | CTree.node v c l CTree.nil => cases h
  | CTree.node v c l (CTree.node rv rc rl rr) =>
    rw [sizeOk_node] at hs
    obtain ⟨hc, hl, hr⟩ := hs
    rw [sizeOk_node] at hr
    cases h
    exact sizeOk_mkNode _ (sizeOk_mkNode _ hl hr.2.1) hr.2.2

/-- `rotate_right` preserves the size invariant whenever it succeeds. -/
lemma rotateRight_sizeOk {t t' : CTree α}
    (hs : sizeOk t = true) (h : rotateRight t = some t') :
    sizeOk t' = true := by
  match t with
  | CTree.nil => cases h
  | CTree.node v c CTree.nil r => cases h
  | CTree.node v c (CTree.node lv lc ll lr) r =>
    rw [sizeOk_node] at hs
    obtain ⟨hc, hl, hr⟩ := hs
    rw [sizeOk_node] at hl
    cases h
    exact sizeOk_mkNode _ hl.2.1 (sizeOk_mkNode _ hl.2.2 hr)

/-- The instrumentation of `walk_reshape`: `stop` fires exactly once, on
the node the `step_in` policy walks to, and `step_out` fires once per
proper ancestor on the descent path. -/
lemma walkReshapeI_spec (fi : CTree α → WalkAction) (fs : CTree α → CTree α)
    (fo : CTree α → WalkAction → CTree α) :
    ∀ t : CTree α, t ≠ CTree.nil →
      (walkReshapeI fi fs fo t).2.1 = [finalNode fi t] ∧
        (walkReshapeI fi fs fo t).2.2.length = pathLen fi t := by
  intro t
  induction t with
  | nil => exact fun h => absurd rfl h
  | node v c l r ihl ihr =>
    intro _
    cases hfi : fi (CTree.node v c l r) with
    | stop => simp [walkReshapeI, finalNode, pathLen, hfi]
    | left =>
      by_cases hl : isNil l = true
      · simp [walkReshapeI, finalNode, pathLen, hfi, hl]
      · have hne : l ≠ CTree.nil := by
          intro hnil
          subst hnil
          exact hl rfl
        obtain ⟨h1, h2⟩ := ihl hne
        simp only [walkReshapeI, finalNode, pathLen, hfi, hl, if_false,
          Bool.false_eq_true]
        exact ⟨h1, by simp [h2]⟩
    | right =>
      by_cases hr : isNil r = true
      · simp [walkReshapeI, finalNode, pathLen, hfi, hr]
      · have hne : r ≠ CTree.nil := by
          intro hnil
          subst hnil
          exact hr rfl
        obtain ⟨h1, h2⟩ := ihr hne
        simp only [walkReshapeI, finalNode, pathLen, hfi, hr, if_false,
          Bool.false_eq_true]
        exact ⟨h1, by simp [h2]⟩

/-- `getMut` declines every out-of-bounds index. -/
lemma getMut_none {t : CTree α} {i : Nat} (f : α → α)
    (hs : sizeOk t = true) (hi : cnt t ≤ i) : getMut f t i = none := by
  induction t generalizing i with
  | nil => rfl
  | node v c l r ihl ihr =>
    rw [sizeOk_node] at hs
    obtain ⟨hc, hl, hr⟩ := hs
    simp only [cnt_node] at hi
    rw [getMut, if_neg (by omega), if_neg (by omega),
      ihr hr (by omega)]
    rfl

/-- `sizeOk` means every stored count is the actual subtree size. -/
lemma cnt_eq_realSize {t : CTree α} (hs : sizeOk t = true) :
    cnt t = realSize t := by
  rw [cnt_eq_length hs, length_toList]

/-! ## The claims -/

/-- Claim C1: for every history of insertions and removals applied from
`new()`, and every index `i < len()`, `get i` returns `some` of the value
at in-order position `i` of the tree, which equals the `i`-th element of
the reference sequence built from the same history. -/
theorem get_matches_reference_history {α : Type} (ops : List (Op α))
    (i : Nat) (hi : i < len (treeRun ops).1) :
    ∃ x, get (treeRun ops).1 i = some x ∧
      (toList (treeRun ops).1)[i]? = some x ∧
      (refRun ops).1[i]? = some x := by
  obtain ⟨hs, hl, _⟩ := foldl_treeStep_refStep ops CTree.nil [] 0 0 rfl rfl
  have hs' : sizeOk (treeRun ops).1 = true := hs
  have hl' : toList (treeRun ops).1 = (refRun ops).1 := hl
  have hlen : i < (toList (treeRun ops).1).length := by
    rw [← cnt_eq_length hs']
    exact hi
  have hsome := List.getElem?_eq_getElem hlen
  refine ⟨(toList (treeRun ops).1).get ⟨i, hlen⟩, ?_, ?_, ?_⟩
  · rw [get_toList hs' i, hsome]
    simp
  · rw [hsome]
    simp
  · rw [← hl', hsome]
    simp

/-- Witness for C1 at the history `push_back 5; push_front 4; insert 1 9`,
index 1. -/
theorem get_matches_reference_history_witness :
    1 < len (treeRun [Op.pushBackOp 5, Op.pushFrontOp 4, Op.insertOp 1 9]
        : CTree Nat × Nat × Nat).1 ∧
      ∃ x, get (treeRun [Op.pushBackOp 5, Op.pushFrontOp 4,
            Op.insertOp 1 9] : CTree Nat × Nat × Nat).1 1 = some x ∧
        (toList (treeRun [Op.pushBackOp 5, Op.pushFrontOp 4,
            Op.insertOp 1 9] : CTree Nat × Nat × Nat).1)[1]? = some x ∧
        (refRun [Op.pushBackOp 5, Op.pushFrontOp 4,
            Op.insertOp 1 9] : List Nat × Nat × Nat).1[1]? = some x :=
  ⟨by decide,
   get_matches_reference_history [Op.pushBackOp 5, Op.pushFrontOp 4,
     Op.insertOp 1 9] 1 (by decide)⟩

/-- Claim C2 counterexample: `remove` on an out-of-bounds index is a fatal
error, not an absent result — on the empty tree there is no element value
the declared return type `T` could supply, so `remove` cannot yield an
"empty" result; the model evaluates to the fatal-error branch. -/
theorem remove_out_of_bounds_counterexample :
    removeExn (CTree.nil : CTree Nat) 0
      = Except.error "index out of bounds" := rfl

/-- Claim C2 as amended: for `i ≥ len()`, `get` and `get_mut` yield `none`
(an absent result, no fatal error), while `remove` — whose declared result
type is the plain element type `T` — fails fatally. -/
theorem out_of_bounds_positional_access {α : Type} (t : CTree α) (i : Nat)
    (hs : sizeOk t = true) (hi : len t ≤ i) :
    get t i = none ∧ (∀ f, getMut f t i = none) ∧
      removeExn t i = Except.error "index out of bounds" := by
  refine ⟨?_, fun f => getMut_none f hs hi, ?_⟩
  · rw [get_toList hs i]
    exact List.getElem?_eq_none (by rw [← cnt_eq_length hs]; exact hi)
  · rw [removeExn, removeAt_none hs hi]

/-- Witness for the amended C2 at a one-element tree and index 1. -/
theorem out_of_bounds_positional_access_witness :
    (sizeOk (CTree.node 7 1 CTree.nil CTree.nil : CTree Nat) = true ∧
        len (CTree.node 7 1 CTree.nil CTree.nil : CTree Nat) ≤ 1) ∧
      get (CTree.node 7 1 CTree.nil CTree.nil : CTree Nat) 1 = none ∧
        (∀ f, getMut f (CTree.node 7 1 CTree.nil CTree.nil : CTree Nat) 1
          = none) ∧
        removeExn (CTree.node 7 1 CTree.nil CTree.nil : CTree Nat) 1
          = Except.error "index out of bounds" :=
  ⟨⟨by decide, by decide⟩,
   out_of_bounds_positional_access (CTree.node 7 1 CTree.nil CTree.nil) 1
     (by decide) (by decide)⟩

/-- Claim C3: under the size invariant every stored count is
`1 + size(left) + size(right)` — equivalently the actual subtree size —
and every structural mutation (`insert`, `remove`, `push_front`,
`push_back`, `pop_front`, `pop_back`, both rotations) preserves the
invariant. -/
theorem size_invariant_preserved {α : Type} (t : CTree α) (i : Nat) (x : α)
    (hs : sizeOk t = true) :
    cnt t = realSize t ∧
      sizeOk (insertAt t i x) = true ∧
      sizeOk (pushFront x t) = true ∧
      sizeOk (pushBack x t) = true ∧
      (∀ y t', removeAt t i = some (y, t') → sizeOk t' = true) ∧
      (∀ y t', popFront t = some (y, t') → sizeOk t' = true) ∧
      (∀ y t', popBack t = some (y, t') → sizeOk t' = true) ∧
      (∀ t', rotateLeft t = some t' → sizeOk t' = true) ∧
      (∀ t', rotateRight t = some t' → sizeOk t' = true) :=
  ⟨cnt_eq_realSize hs, insertAt_sizeOk i x hs, pushFront_sizeOk x hs,
   pushBack_sizeOk x hs,
   fun _ _ h => removeAt_sizeOk hs h,
   fun _ _ h => popFront_sizeOk hs h,
   fun _ _ h => popBack_sizeOk hs h,
   fun _ h => rotateLeft_sizeOk hs h,
   fun _ h => rotateRight_sizeOk hs h⟩

/-- Witness for C3 at a concrete three-node tree, index 1, value 9. -/
theorem size_invariant_preserved_witness :
    sizeOk (CTree.node 2 3 (CTree.node 1 1 CTree.nil CTree.nil)
        (CTree.node 3 1 CTree.nil CTree.nil) : CTree Nat) = true ∧
      (cnt (CTree.node 2 3 (CTree.node 1 1 CTree.nil CTree.nil)
          (CTree.node 3 1 CTree.nil CTree.nil) : CTree Nat)
        = realSize (CTree.node 2 3 (CTree.node 1 1 CTree.nil CTree.nil)
          (CTree.node 3 1 CTree.nil CTree.nil) : CTree Nat) ∧
      sizeOk (insertAt (CTree.node 2 3 (CTree.node 1 1 CTree.nil CTree.nil)
          (CTree.node 3 1 CTree.nil CTree.nil) : CTree Nat) 1 9) = true ∧
      sizeOk (pushFront 9 (CTree.node 2 3
          (CTree.node 1 1 CTree.nil CTree.nil)
          (CTree.node 3 1 CTree.nil CTree.nil) : CTree Nat)) = true ∧
      sizeOk (pushBack 9 (CTree.node 2 3
          (CTree.node 1 1 CTree.nil CTree.nil)
          (CTree.node 3 1 CTree.nil CTree.nil) : CTree Nat)) = true ∧
      (∀ y t', removeAt (CTree.node 2 3
          (CTree.node 1 1 CTree.nil CTree.nil)
          (CTree.node 3 1 CTree.nil CTree.nil) : CTree Nat) 1
            = some (y, t') → sizeOk t' = true) ∧
      (∀ y t', popFront (CTree.node 2 3
          (CTree.node 1 1 CTree.nil CTree.nil)
          (CTree.node 3 1 CTree.nil CTree.nil) : CTree Nat)
            = some (y, t') → sizeOk t' = true) ∧
      (∀ y t', popBack (CTree.node 2 3
          (CTree.node 1 1 CTree.nil CTree.nil)
          (CTree.node 3 1 CTree.nil CTree.nil) : CTree Nat)
            = some (y, t') → sizeOk t' = true) ∧
      (∀ t', rotateLeft (CTree.node 2 3
          (CTree.node 1 1 CTree.nil CTree.nil)
          (CTree.node 3 1 CTree.nil CTree.nil) : CTree Nat)
            = some t' → sizeOk t' = true) ∧
      (∀ t', rotateRight (CTree.node 2 3
          (CTree.node 1 1 CTree.nil CTree.nil)
          (CTree.node 3 1 CTree.nil CTree.nil) : CTree Nat)
            = some t' → sizeOk t' = true)) :=
  ⟨by decide,
   size_invariant_preserved (CTree.node 2 3
     (CTree.node 1 1 CTree.nil CTree.nil)
     (CTree.node 3 1 CTree.nil CTree.nil)) 1 9 (by decide)⟩

/-- Claim C4: after any history of `push_back`/`push_front`/`insert`/
`remove` from `new()`, `len()` equals the number of successful insertions
minus the number of successful removals. -/
theorem len_equals_insertions_minus_removals {α : Type}
    (ops : List (Op α)) :
    (treeRun ops).2.2 ≤ (treeRun ops).2.1 ∧
      len (treeRun ops).1 = (treeRun ops).2.1 - (treeRun ops).2.2 := by
  obtain ⟨hs, hl, hc⟩ := foldl_treeStep_refStep ops CTree.nil [] 0 0 rfl rfl
  have hlen := refRun_length_invariant ops [] 0 0 rfl
  rw [treeRun, hc, len, cnt_eq_length hs, hl]
  omega

/-- Claim C5: building a `CountTree` from a sequence by bulk construction
and then iterating it in order reproduces the original sequence. -/
theorem from_iter_roundtrip {α : Type} (l : List α) :
    toList (fromIter l) = l := by
  obtain ⟨h1, _, _⟩ := buildBal_spec l.length l le_rfl
  rw [fromIter, h1, List.take_length]

/-- Claim C6: on any size-correct node with a right child, `rotate_left`
succeeds, and `rotate_right` applied to the result restores the original
tree — the original shape (counts included) and hence its in-order
sequence. -/
theorem rotate_left_right_roundtrip {α : Type} (v : α) (c : Nat)
    (l : CTree α) (rv : α) (rc : Nat) (rl rr : CTree α)
    (hs : sizeOk (CTree.node v c l (CTree.node rv rc rl rr)) = true) :
    (rotateLeft (CTree.node v c l (CTree.node rv rc rl rr))).bind
        rotateRight
      = some (CTree.node v c l (CTree.node rv rc rl rr)) := by
  rw [sizeOk_node] at hs
  obtain ⟨hc, hl, hr⟩ := hs
  rw [sizeOk_node] at hr
  obtain ⟨hrc, _, _⟩ := hr
  have h1 : 1 + cnt rl + cnt rr = rc := by
    omega
  have h2 : 1 + cnt l + rc = c := by
    simp only [cnt_node] at hc
    omega
  simp only [rotateLeft, Option.some_bind, rotateRight, mkNode,
    cnt_mkNode, cnt_node]
  rw [h1, h2]

/-- Witness for C6 at the two-node tree `node 1 2 nil (node 2 1 nil nil)`. -/
theorem rotate_left_right_roundtrip_witness :
    sizeOk (CTree.node 1 2 CTree.nil
        (CTree.node 2 1 CTree.nil CTree.nil) : CTree Nat) = true ∧
      (rotateLeft (CTree.node 1 2 CTree.nil
          (CTree.node 2 1 CTree.nil CTree.nil) : CTree Nat)).bind
          rotateRight
        = some (CTree.node 1 2 CTree.nil
            (CTree.node 2 1 CTree.nil CTree.nil)) :=
  ⟨by decide,
   rotate_left_right_roundtrip 1 2 CTree.nil 2 1 CTree.nil CTree.nil
     (by decide)⟩

/-- Claim C7: `try_remove` returns an absent result exactly on a leaf; on
a node with exactly one child it returns the node's value and promotes the
child's subtree into the node's place. -/
theorem try_remove_leaf_one_child {α : Type} (v : α) (c : Nat)
    (l r : CTree α) :
    (tryRemove (CTree.node v c l r) = none ↔
        l = CTree.nil ∧ r = CTree.nil) ∧
      (l = CTree.nil → r ≠ CTree.nil →
        tryRemove (CTree.node v c l r) = some (v, r)) ∧
      (r = CTree.nil → l ≠ CTree.nil →
        tryRemove (CTree.node v c l r) = some (v, l)) := by
  match l, r with
  | CTree.nil, CTree.nil =>
    refine ⟨by simp [tryRemove], fun _ h => absurd rfl h,
      fun _ h => absurd rfl h⟩
  | CTree.nil, CTree.node rv rc rl rr =>
    refine ⟨by simp [tryRemove], fun _ _ => by simp [tryRemove],
      fun h _ => absurd h (by simp)⟩
  | CTree.node lv lc ll lr, CTree.nil =>
    refine ⟨by simp [tryRemove], fun h _ => absurd h (by simp),
      fun _ _ => by simp [tryRemove]⟩
  | CTree.node lv lc ll lr, CTree.node rv rc rl rr =>
    obtain ⟨x, l', hpop, _, _⟩ :=
      popBack_spec (t := CTree.node lv lc ll lr) (by simp)
    refine ⟨?_, fun h _ => absurd h (by simp),
      fun h _ => absurd h (by simp)⟩
    rw [tryRemove, hpop]
    simp

/-- Witness for C7 at a node whose only child is its left child. -/
theorem try_remove_leaf_one_child_witness :
    (tryRemove (CTree.node 5 2 (CTree.node 7 1 CTree.nil CTree.nil)
          CTree.nil : CTree Nat) = none ↔
        (CTree.node 7 1 CTree.nil CTree.nil : CTree Nat) = CTree.nil ∧
          (CTree.nil : CTree Nat) = CTree.nil) ∧
      ((CTree.node 7 1 CTree.nil CTree.nil : CTree Nat) = CTree.nil →
        (CTree.nil : CTree Nat) ≠ CTree.nil →
        tryRemove (CTree.node 5 2 (CTree.node 7 1 CTree.nil CTree.nil)
          CTree.nil) = some (5, CTree.nil)) ∧
      ((CTree.nil : CTree Nat) = CTree.nil →
        (CTree.node 7 1 CTree.nil CTree.nil : CTree Nat) ≠ CTree.nil →
        tryRemove (CTree.node 5 2 (CTree.node 7 1 CTree.nil CTree.nil)
          CTree.nil) = some (5, CTree.node 7 1 CTree.nil CTree.nil)) :=
  try_remove_leaf_one_child 5 2 (CTree.node 7 1 CTree.nil CTree.nil)
    CTree.nil

/-- Claim C8: for every tree and every choice of policies, `walk_reshape`
invokes `stop` exactly once — on the node where the `step_in`-directed
descent ends (a `Stop` signal or an absent directed child) — and invokes
`step_out` exactly once for every proper ancestor on the root-to-node
descent path, the stopping node excluded. -/
theorem walk_reshape_invocations {α : Type}
    (fi : CTree α → WalkAction) (fs : CTree α → CTree α)
    (fo : CTree α → WalkAction → CTree α) (t : CTree α)
    (h : t ≠ CTree.nil) :
    (walkReshapeI fi fs fo t).2.1 = [finalNode fi t] ∧
      (walkReshapeI fi fs fo t).2.2.length = pathLen fi t :=
  walkReshapeI_spec fi fs fo t h

/-- Witness for C8 on a three-node tree with a constant `Left` policy. -/
theorem walk_reshape_invocations_witness :
    (CTree.node 2 3 (CTree.node 1 1 CTree.nil CTree.nil)
        (CTree.node 3 1 CTree.nil CTree.nil) : CTree Nat) ≠ CTree.nil ∧
      ((walkReshapeI (fun _ => WalkAction.left) id (fun s _ => s)
          (CTree.node 2 3 (CTree.node 1 1 CTree.nil CTree.nil)
            (CTree.node 3 1 CTree.nil CTree.nil) : CTree Nat)).2.1
          = [finalNode (fun _ => WalkAction.left)
              (CTree.node 2 3 (CTree.node 1 1 CTree.nil CTree.nil)
                (CTree.node 3 1 CTree.nil CTree.nil))] ∧
        (walkReshapeI (fun _ => WalkAction.left) id (fun s _ => s)
            (CTree.node 2 3 (CTree.node 1 1 CTree.nil CTree.nil)
              (CTree.node 3 1 CTree.nil CTree.nil) : CTree Nat)).2.2.length
          = pathLen (fun _ => WalkAction.left)
              (CTree.node 2 3 (CTree.node 1 1 CTree.nil CTree.nil)
                (CTree.node 3 1 CTree.nil CTree.nil))) :=
  ⟨by decide,
   walk_reshape_invocations (fun _ => WalkAction.left) id (fun s _ => s)
     (CTree.node 2 3 (CTree.node 1 1 CTree.nil CTree.nil)
       (CTree.node 3 1 CTree.nil CTree.nil)) (by decide)⟩

/-- Claim C9: `deref_mut` mutates in place when the cell has exactly one
owner; with more than one owner it first clones the payload into a fresh
cell and mutates the clone, so the value observed through any previously
created clone of the pointer is unchanged — in particular after
`clone` then `deref_mut`, the original pointer still reads the old
value. -/
theorem cow_deref_mut_isolation {α : Type} (h : CowHeap α) (p : RcCow α)
    (n : Nat) (x : α) (f : α → α) (hn : 1 ≤ n)
    (hcell : h.cells[p.idx]? = some (n, x)) :
    (n = 1 → RcCow.derefMut p f h
        = (p, ⟨h.cells.set p.idx (1, f x)⟩)) ∧
      (2 ≤ n → (RcCow.derefMut p f h).1.idx = h.cells.length ∧
        RcCow.read p (RcCow.derefMut p f h).2 = some x ∧
        RcCow.read (RcCow.derefMut p f h).1 (RcCow.derefMut p f h).2
          = some (f x)) ∧
      RcCow.read p (RcCow.derefMut p f (RcCow.clone p h).2).2 = some x := by
  have hidx : p.idx < h.cells.length := by
    by_contra hcon
    rw [List.getElem?_eq_none (by omega)] at hcell
    cases hcell
  refine ⟨?_, ?_, ?_⟩
  · intro h1
    subst h1
    simp [RcCow.derefMut, hcell]
  · intro h2
    simp only [RcCow.derefMut, hcell]
    rw [if_neg (by omega)]
    refine ⟨rfl, ?_, ?_⟩
    · rw [RcCow.read]
      rw [List.getElem?_append, if_pos (by simpa using hidx)]
      rw [List.getElem?_set_eq_of_lt _ hidx]
      rfl
    · rw [RcCow.read]
      rw [List.getElem?_append, if_neg (by simp)]
      simp
  · simp only [RcCow.clone, hcell]
    simp only [RcCow.derefMut]
    have hset2 : (h.cells.set p.idx (n + 1, x))[p.idx]? = some (n + 1, x) :=
      List.getElem?_set_eq_of_lt _ hidx
    simp only [hset2]
    rw [if_neg (by omega)]
    rw [RcCow.read]
    rw [List.getElem?_append, if_pos (by simpa using hidx)]
    have hidx2 : p.idx < (h.cells.set p.idx (n + 1, x)).length := by
      simpa using hidx
    rw [List.getElem?_set_eq_of_lt _ hidx2]
    rfl

/-- Witness for C9 on a one-cell heap with reference count 2. -/
theorem cow_deref_mut_isolation_witness :
    (1 ≤ 2 ∧
        (⟨[(2, 10)]⟩ : CowHeap Nat).cells[(⟨0⟩ : RcCow Nat).idx]?
          = some (2, 10)) ∧
      ((2 = 1 → RcCow.derefMut (⟨0⟩ : RcCow Nat) (fun y => y + 1)
            (⟨[(2, 10)]⟩ : CowHeap Nat)
          = (⟨0⟩, ⟨(⟨[(2, 10)]⟩ : CowHeap Nat).cells.set 0 (1, 10 + 1)⟩)) ∧
        (2 ≤ 2 →
          (RcCow.derefMut (⟨0⟩ : RcCow Nat) (fun y => y + 1)
              (⟨[(2, 10)]⟩ : CowHeap Nat)).1.idx
            = (⟨[(2, 10)]⟩ : CowHeap Nat).cells.length ∧
          RcCow.read (⟨0⟩ : RcCow Nat)
              (RcCow.derefMut (⟨0⟩ : RcCow Nat) (fun y => y + 1)
                (⟨[(2, 10)]⟩ : CowHeap Nat)).2 = some 10 ∧
          RcCow.read
              (RcCow.derefMut (⟨0⟩ : RcCow Nat) (fun y => y + 1)
                (⟨[(2, 10)]⟩ : CowHeap Nat)).1
              (RcCow.derefMut (⟨0⟩ : RcCow Nat) (fun y => y + 1)
                (⟨[(2, 10)]⟩ : CowHeap Nat)).2 = some (10 + 1)) ∧
        RcCow.read (⟨0⟩ : RcCow Nat)
            (RcCow.derefMut (⟨0⟩ : RcCow Nat) (fun y => y + 1)
              (RcCow.clone (⟨0⟩ : RcCow Nat)
                (⟨[(2, 10)]⟩ : CowHeap Nat)).2).2 = some 10) :=
  ⟨⟨by decide, rfl⟩,
   cow_deref_mut_isolation (⟨[(2, 10)]⟩ : CowHeap Nat) ⟨0⟩ 2 10
     (fun y => y + 1) (by decide) rfl⟩

/-- Claim C10: `pop_front` and `pop_back` return `none` on the empty tree,
without failing; on a non-empty tree they return `some` of the first
(respectively last) in-order element and remove it from the tree. -/
theorem pop_front_pop_back {α : Type} (t : CTree α) :
    (popFront (CTree.nil : CTree α) = none ∧
        popBack (CTree.nil : CTree α) = none) ∧
      (t ≠ CTree.nil → ∃ x t', popFront t = some (x, t') ∧
        toList t = x :: toList t') ∧
      (t ≠ CTree.nil → ∃ y t', popBack t = some (y, t') ∧
        toList t = toList t' ++ [y]) := by
  refine ⟨⟨rfl, rfl⟩, fun h => ?_, fun h => ?_⟩
  · obtain ⟨x, t', h1, h2, _⟩ := popFront_spec h
    exact ⟨x, t', h1, h2⟩
  · obtain ⟨y, t', h1, h2, _⟩ := popBack_spec h
    exact ⟨y, t', h1, h2⟩

/-- Witness for C10 at a two-node tree. -/
theorem pop_front_pop_back_witness :
    (popFront (CTree.nil : CTree Nat) = none ∧
        popBack (CTree.nil : CTree Nat) = none) ∧
      ((CTree.node 2 2 (CTree.node 1 1 CTree.nil CTree.nil) CTree.nil
          : CTree Nat) ≠ CTree.nil →
        ∃ x t', popFront (CTree.node 2 2
            (CTree.node 1 1 CTree.nil CTree.nil) CTree.nil) = some (x, t') ∧
          toList (CTree.node 2 2 (CTree.node 1 1 CTree.nil CTree.nil)
            CTree.nil) = x :: toList t') ∧
      ((CTree.node 2 2 (CTree.node 1 1 CTree.nil CTree.nil) CTree.nil
          : CTree Nat) ≠ CTree.nil →
        ∃ y t', popBack (CTree.node 2 2
            (CTree.node 1 1 CTree.nil CTree.nil) CTree.nil) = some (y, t') ∧
          toList (CTree.node 2 2 (CTree.node 1 1 CTree.nil CTree.nil)
            CTree.nil) = toList t' ++ [y]) :=
  pop_front_pop_back
    (CTree.node 2 2 (CTree.node 1 1 CTree.nil CTree.nil) CTree.nil)

end BinaryTree
